import Mathlib

/-!
Shallow embedding of `src/pyLDAvis/prepare.py` and proofs about it.

Numeric values are modelled as exact rationals (`ℚ`); matrices as a shape
(`rows`, `cols`) together with an entry function; pandas frames as lists of
rows; Python exceptions as `Except` / `Option`.
-/

namespace PyLDAvis

/-- Python `round` (banker's rounding, ties to even) on a rational. -/
def pyRound (q : ℚ) : ℤ :=
  let f := ⌊q⌋
  let r := q - (f : ℚ)
  if r < 1/2 then f
  else if 1/2 < r then f + 1
  else if 2 ∣ f then f else f + 1

/-- Python `round(x, d)`: round to `d` decimal digits. -/
def roundTo (q : ℚ) (d : Nat) : ℚ :=
  (pyRound (q * (10 ^ d : ℕ)) : ℚ) / (10 ^ d : ℕ)

/-- Python `int()` conversion: truncation toward zero. -/
def pyTrunc (q : ℚ) : ℤ :=
  if 0 ≤ q then ⌊q⌋ else -⌊-q⌋

/-- A numeric 2-d array: a shape together with an entry function
(entries outside the shape are irrelevant). -/
structure Mat where
  rows : Nat
  cols : Nat
  entry : Nat → Nat → ℚ

/-- Sum of row `i` of a matrix (pandas `DataFrame(array).sum(axis=1)`). -/
def rowSum (m : Mat) (i : Nat) : ℚ :=
  ∑ j ∈ Finset.range m.cols, m.entry i j

/-- Embeds `__num_dist_rows__`: round each row sum to 2 decimals, add the
rounded row sums and truncate to an integer. -/
def numDistRows (m : Mat) : ℤ :=
  pyTrunc (∑ i ∈ Finset.range m.rows, roundTo (rowSum m i) 2)

/-- The five raw inputs of `prepare`, after the `_df_with_names` /
`_series_with_name` normalisation (numeric positional indices). -/
structure Inputs where
  topic_term_dists : Mat
  doc_topic_dists : Mat
  doc_lengths : List ℚ
  vocab : List String
  term_frequency : List ℚ

/-- One tag per distinct message text appended by `_input_check`. -/
inductive CheckMsg where
  | topicCountMismatch
  | docCountMismatch
  | vocabSizeMismatch
  | termFrequencySizeMismatch
  | ttdRowsNotSumOne
  | dtdRowsNotSumOne
deriving DecidableEq, Repr

/-- The condition under which `_input_check` appends each message. -/
def checkFails (I : Inputs) : CheckMsg → Bool
  | .topicCountMismatch => decide (I.doc_topic_dists.cols ≠ I.topic_term_dists.rows)
  | .docCountMismatch => decide (I.doc_lengths.length ≠ I.doc_topic_dists.rows)
  | .vocabSizeMismatch => decide (I.topic_term_dists.cols ≠ I.vocab.length)
  | .termFrequencySizeMismatch => decide (I.term_frequency.length ≠ I.vocab.length)
  | .ttdRowsNotSumOne => decide (numDistRows I.topic_term_dists ≠ (I.topic_term_dists.rows : ℤ))
  | .dtdRowsNotSumOne => decide (numDistRows I.doc_topic_dists ≠ (I.doc_topic_dists.rows : ℤ))

/-- Embeds `_input_check`: run every check in source order and collect the
messages of the violated ones. -/
def inputCheck (I : Inputs) : List CheckMsg :=
  (if I.doc_topic_dists.cols ≠ I.topic_term_dists.rows then [CheckMsg.topicCountMismatch] else []) ++
  (if I.doc_lengths.length ≠ I.doc_topic_dists.rows then [CheckMsg.docCountMismatch] else []) ++
  (if I.topic_term_dists.cols ≠ I.vocab.length then [CheckMsg.vocabSizeMismatch] else []) ++
  (if I.term_frequency.length ≠ I.vocab.length then [CheckMsg.termFrequencySizeMismatch] else []) ++
  (if numDistRows I.topic_term_dists ≠ (I.topic_term_dists.rows : ℤ) then [CheckMsg.ttdRowsNotSumOne] else []) ++
  (if numDistRows I.doc_topic_dists ≠ (I.doc_topic_dists.rows : ℤ) then [CheckMsg.dtdRowsNotSumOne] else [])

/-- Embeds `_input_validate`: raise a `ValidationError` carrying the collected
messages when `_input_check` returned any, otherwise return silently. -/
def inputValidate (I : Inputs) : Except (List CheckMsg) Unit :=
  if inputCheck I = [] then Except.ok () else Except.error (inputCheck I)

/-- The six messages in the order `_input_check` tests them. -/
def allChecks : List CheckMsg :=
  [CheckMsg.topicCountMismatch, CheckMsg.docCountMismatch, CheckMsg.vocabSizeMismatch,
   CheckMsg.termFrequencySizeMismatch, CheckMsg.ttdRowsNotSumOne, CheckMsg.dtdRowsNotSumOne]

/-- Embeds `_chunks(l, n)`: the slices `l[i:i+n]` for `i` in
`range(0, len(l), n)`. -/
def chunksFun {α : Type} (l : List α) (n : Nat) : List (List α) :=
  (List.range' 0 ((l.length + n - 1) / n) n).map (fun i => (l.drop i).take n)

/-- Embeds `_job_chunks(l, n_jobs)`: the negative-`n_jobs` branch replaces the
chunking parameter by `cpu_count() + 1 - n_jobs`; the result is passed to
`_chunks` (where it acts as the chunk size). -/
def jobChunks {α : Type} (l : List α) (nJobs : ℤ) (cpu : Nat) : List (List α) :=
  chunksFun l (if nJobs < 0 then ((cpu : ℤ) + 1 - nJobs).toNat else nJobs.toNat)

/-- The relevance score `lambda_ * log_ttd + (1 - lambda_) * log_lift` of
`_find_relevance`, for topic `t` and term `w`.  The log matrices are taken as
abstract rational matrices since their values are transcendental in general. -/
def relevance (logTtd logLift : Nat → Nat → ℚ) (lam : ℚ) (t w : Nat) : ℚ :=
  lam * logTtd t w + (1 - lam) * logLift t w

/-- Embeds `_find_relevance` (the column of topic `t`): all `W` term indices
sorted by descending relevance (pandas stable mergesort), then `head(R)`. -/
def findRelevance (logTtd logLift : Nat → Nat → ℚ) (W R : Nat) (lam : ℚ) (t : Nat) :
    List Nat :=
  ((List.range W).mergeSort (fun a b =>
    decide (relevance logTtd logLift lam t b ≤ relevance logTtd logLift lam t a))).take R

/-- Embeds `_find_relevance_chunks` (the column of topic `t`): concatenation of
the per-λ rankings of one chunk of the sweep. -/
def findRelevanceChunks (logTtd logLift : Nat → Nat → ℚ) (W R : Nat) (lamSeq : List ℚ)
    (t : Nat) : List Nat :=
  (lamSeq.map (fun lam => findRelevance logTtd logLift W R lam t)).flatten

/-- numpy `arange(start, stop, step)` over exact rationals (`step > 0`). -/
def arange (start stop step : ℚ) : List ℚ :=
  (List.range (⌈(stop - start) / step⌉.toNat)).map (fun k => start + (k : ℚ) * step)

/-- The λ sweep `np.arange(0, 1 + lambda_step, lambda_step)` of `_topic_info`. -/
def lambdaSeq (step : ℚ) : List ℚ := arange 0 (1 + step) step

/-- The `top_terms` column of topic `t` in `_topic_info`: the sweep is cut into
job chunks, each chunk mapped through `_find_relevance_chunks`, and the results
concatenated (`pd.concat` over the `Parallel` outputs, in dispatch order). -/
def topTermsFor (logTtd logLift : Nat → Nat → ℚ) (W R : Nat) (lamSeq : List ℚ)
    (nJobs : ℤ) (cpu : Nat) (t : Nat) : List Nat :=
  ((jobChunks lamSeq nJobs cpu).map
    (fun ls => findRelevanceChunks logTtd logLift W R ls t)).flatten

/-- `topic_terms.unique()` in `topic_top_term_df`, as a finite set: the term
indices whose rows are emitted for topic `t` in TopicInfo. -/
def topicInfoTermSet (logTtd logLift : Nat → Nat → ℚ) (W R : Nat) (lamSeq : List ℚ)
    (nJobs : ℤ) (cpu : Nat) (t : Nat) : Finset Nat :=
  (topTermsFor logTtd logLift W R lamSeq nJobs cpu t).toFinset

/-- `topic_freq` in `prepare`: `(doc_topic_dists.T * doc_lengths).T.sum()`,
the document-length-weighted mass of topic `t`. -/
def topicFreqOf (dtd : Mat) (docLengths : Nat → ℚ) (t : Nat) : ℚ :=
  ∑ d ∈ Finset.range dtd.rows, dtd.entry d t * docLengths d

/-- The values of `topic_freq / topic_freq.sum()` in `prepare` (before the
descending sort). -/
def topicProportionOf (dtd : Mat) (docLengths : Nat → ℚ) (t : Nat) : ℚ :=
  topicFreqOf dtd docLengths t / ∑ u ∈ Finset.range dtd.cols, topicFreqOf dtd docLengths u

/-- `topic_order` in `prepare`: the index of the proportion series after
`.order(ascending=False)` (a stable sort by descending proportion). -/
def topicOrderOf (dtd : Mat) (docLengths : Nat → ℚ) : List Nat :=
  (List.range dtd.cols).mergeSort (fun a b =>
    decide (topicProportionOf dtd docLengths b ≤ topicProportionOf dtd docLengths a))

/-- The row permutation `topic_term_dists.ix[topic_order]`. -/
def reorderRows (m : Mat) (ord : List Nat) : Mat :=
  ⟨ord.length, m.cols, fun i j => m.entry (ord.getD i 0) j⟩

/-- The column permutation `doc_topic_dists[topic_order]`. -/
def reorderCols (m : Mat) (ord : List Nat) : Mat :=
  ⟨m.rows, ord.length, fun i j => m.entry i (ord.getD j 0)⟩

/-- `client_topic_order = [x + 1 for x in topic_order]` in `prepare`; exported
as the `topic.order` field by `PreparedData.to_dict`. -/
def clientTopicOrder (ord : List Nat) : List Nat := ord.map (fun x => x + 1)

/-- The `(new_topic_id, original_topic_id)` pairs that
`enumerate(top_terms.T.iterrows(), 1)` feeds to `topic_top_term_df` in
`_topic_info`: display position `j` carries id `j + 1` and original index
`topic_order[j]`. -/
def topicCategoryPairs (ord : List Nat) : List (Nat × Nat) :=
  (List.range ord.length).map (fun j => (j + 1, ord.getD j 0))

/-- The raw estimate `(topic_term_dists.T * topic_freq).T` of
`_term_topic_freq`: row `k` of the distribution scaled by topic `k`'s mass. -/
def termTopicFreqRaw (ttd : Nat → Nat → ℚ) (topicFreq : Nat → ℚ) (k w : Nat) : ℚ :=
  ttd k w * topicFreq k

/-- Embeds `_term_topic_freq`: multiply each term's column of the raw estimate
by `err = term_frequency / term_topic_freq.sum()` (the per-term column sum). -/
def termTopicFreq (K : Nat) (ttd : Nat → Nat → ℚ) (topicFreq termFreq : Nat → ℚ)
    (k w : Nat) : ℚ :=
  termTopicFreqRaw ttd topicFreq k w *
    (termFreq w / ∑ u ∈ Finset.range K, termTopicFreqRaw ttd topicFreq u w)

/-- One row of the token table: 1-based topic id, term index, term label and
(normalized) frequency. -/
structure TokenRow where
  topic : Nat
  termIndex : Nat
  term : String
  freq : ℚ
deriving DecidableEq, Repr

/-- Default label used for an out-of-range vocabulary lookup. -/
def noLabel : String := ""

/-- The comparator of `token_table.sort(['Term', 'Topic'])`: term label first,
1-based topic id second. -/
def tokenRowLe (a b : TokenRow) : Bool :=
  decide (a.term < b.term) || (decide (a.term = b.term) && decide (a.topic ≤ b.topic))

/-- Embeds `_token_table`.  `topicInfoIndex` is the index of the `topic_info`
frame (term indices, with repetitions); `ttf` is the corrected term-topic
frequency table with topics in display position order (position `p` is topic id
`p + 1`, matching `top_topic_terms_freq.index = range(1, K + 1)`).  The steps:
unique + sort of the index, unstack to `(term, topic, Freq)` triples, filter
`Freq >= 0.5`, round, attach the vocabulary label, divide by the term's corpus
frequency, and sort by term label then topic id. -/
def tokenTable (K : Nat) (ttf : Nat → Nat → ℚ) (topicInfoIndex : List Nat)
    (vocab : List String) (termFreq : Nat → ℚ) : List TokenRow :=
  let termIx := (topicInfoIndex.dedup).mergeSort (fun a b => decide (a ≤ b))
  let unstacked := termIx.flatMap (fun w => (List.range K).map (fun p => (w, p + 1, ttf p w)))
  let kept := unstacked.filter (fun r => decide ((1 : ℚ)/2 ≤ r.2.2))
  (kept.map (fun r =>
    TokenRow.mk r.2.1 r.1 (vocab.getD r.1 noLabel) ((pyRound r.2.2 : ℚ) / termFreq r.1))).mergeSort
    tokenRowLe

/-- One row of the topic-coordinates table of `_topic_coordinates`. -/
structure CoordRow where
  x : ℚ
  y : ℚ
  topics : Nat
  cluster : Nat
  freq : ℚ
deriving DecidableEq, Repr

/-- Embeds `_topic_coordinates`: apply the injected `mds` strategy to the
(reordered) topic-term matrix; `assert mds_res.shape == (K, 2)` is modelled by
returning `none` (the `AssertionError`) on a shape mismatch, otherwise build
one row per topic with x, y, 1-based topic id, constant cluster `1` and
`Freq = topic_proportion * 100`. -/
def topicCoordinates (mds : Mat → Mat) (ttd : Mat) (prop : Nat → ℚ) :
    Option (List CoordRow) :=
  let K := ttd.rows
  let res := mds ttd
  if res.rows = K ∧ res.cols = 2 then
    some ((List.range K).map (fun i =>
      ⟨res.entry i 0, res.entry i 1, i + 1, 1, prop i * 100⟩))
  else none

/-! Concrete data used by witnesses and counterexamples. -/

/-- A concrete 1-topic, 1-document, 1-term input that passes every check
(its term frequency 3/5 is deliberately not an integer). -/
def exTiny : Inputs :=
  { topic_term_dists := ⟨1, 1, fun _ _ => 1⟩
    doc_topic_dists := ⟨1, 1, fun _ _ => 1⟩
    doc_lengths := [1]
    vocab := ["a"]
    term_frequency := [3/5] }

/-- A concrete input whose second `topic_term_dists` row sums to 3/4, so the
row-stochasticity check on `topic_term_dists` fails and nothing else does. -/
def exBad : Inputs :=
  { topic_term_dists := ⟨2, 2, fun i j => if i = 0 then 1/2 else if j = 0 then 1/2 else 1/4⟩
    doc_topic_dists := ⟨1, 2, fun _ _ => 1/2⟩
    doc_lengths := [1]
    vocab := ["a", "b"]
    term_frequency := [1, 2] }

/-- `doc_lengths` of `exTiny` as a positional series. -/
def exTinyDl : Nat → ℚ := fun d => exTiny.doc_lengths.getD d 0

/-- `term_frequency` of `exTiny` as a positional series. -/
def exTinyTf : Nat → ℚ := fun w => exTiny.term_frequency.getD w 0

/-- `topic_order` computed by `prepare` on `exTiny`. -/
def exTinyOrd : List Nat := topicOrderOf exTiny.doc_topic_dists exTinyDl

/-- The corrected term-topic frequency table computed by `prepare` on `exTiny`
(reordered distributions and reordered topic masses, positions = display
order). -/
def exTinyTtf : Nat → Nat → ℚ :=
  termTopicFreq 1 (reorderRows exTiny.topic_term_dists exTinyOrd).entry
    (fun k => topicFreqOf exTiny.doc_topic_dists exTinyDl (exTinyOrd.getD k 0)) exTinyTf

/-- Concrete 2-topic 2-term distribution data for the C1 witness. -/
def exTtd2 : Nat → Nat → ℚ := fun k w =>
  if k = 0 then (if w = 0 then 7/10 else 3/10) else (if w = 0 then 1/5 else 4/5)

/-- Concrete topic masses for the C1 witness. -/
def exTopicFreq2 : Nat → ℚ := fun k => if k = 0 then 10 else 20

/-- Concrete term frequencies for the C1 witness. -/
def exTermFreq2 : Nat → ℚ := fun w => if w = 0 then 5 else 25

/-- A concrete constant log-matrix for the C2 witness. -/
def exLog0 : Nat → Nat → ℚ := fun _ _ => 0

/-- Constant unit term-topic frequency table for the C8 witness. -/
def exTtfOne : Nat → Nat → ℚ := fun _ _ => 2

/-- Constant term frequencies for the C8 witness. -/
def exTfTwo : Nat → ℚ := fun _ => 2

/-- A concrete well-shaped mds strategy (all-zero K×2 output) for the C9
witness. -/
def exMds2 : Mat → Mat := fun m => ⟨m.rows, 2, fun _ _ => 0⟩

/-! Helper lemmas about the numeric primitives. -/

theorem pyRound_eq_low (q : ℚ) (n : ℤ) (h1 : (n : ℚ) ≤ q) (h2 : q < (n : ℚ) + 1/2) :
    pyRound q = n := by
  have hf : ⌊q⌋ = n := Int.floor_eq_iff.mpr ⟨h1, by linarith⟩
  unfold pyRound
  rw [hf, if_pos (by linarith)]

theorem pyRound_eq_high (q : ℚ) (n : ℤ) (h1 : (n : ℚ) + 1/2 < q) (h2 : q < (n : ℚ) + 1) :
    pyRound q = n + 1 := by
  have hf : ⌊q⌋ = n := Int.floor_eq_iff.mpr ⟨by linarith, by linarith⟩
  unfold pyRound
  rw [hf, if_neg (by linarith), if_pos (by linarith)]

theorem pyRound_intCast (n : ℤ) : pyRound (n : ℚ) = n :=
  pyRound_eq_low _ n (le_refl _) (by norm_num)

theorem floor_le_pyRound (q : ℚ) : ⌊q⌋ ≤ pyRound q := by
  simp only [pyRound]
  split_ifs <;> omega

theorem pyRound_nonneg (q : ℚ) (h : 0 ≤ q) : 0 ≤ pyRound q := by
  have := floor_le_pyRound q
  have h0 : (0 : ℤ) ≤ ⌊q⌋ := Int.le_floor.mpr (by exact_mod_cast h)
  omega

theorem pyRound_le_int (q : ℚ) (n : ℤ) (h : q ≤ (n : ℚ)) : pyRound q ≤ n := by
  simp only [pyRound]
  have hfl : ⌊q⌋ ≤ n := Int.floor_le_floor h |>.trans_eq (Int.floor_intCast n)
  split_ifs with hc1 hc2 hc3
  · exact hfl
  · -- the fractional part exceeds 1/2, so the floor is strictly below n
    have hq : (⌊q⌋ : ℚ) + 1/2 < q := by linarith
    have : (⌊q⌋ : ℚ) < n := by linarith
    have : ⌊q⌋ < n := by exact_mod_cast this
    omega
  · exact hfl
  · -- exact tie: the fractional part is 1/2, again the floor is strictly below n
    have hq : (⌊q⌋ : ℚ) + 1/2 ≤ q := by linarith
    have : (⌊q⌋ : ℚ) < n := by linarith
    have : ⌊q⌋ < n := by exact_mod_cast this
    omega

theorem roundTo_intCast (n : ℤ) (d : Nat) : roundTo (n : ℚ) d = n := by
  unfold roundTo
  have hcast : ((n : ℚ) * (10 ^ d : ℕ)) = ((n * 10 ^ d : ℤ) : ℚ) := by push_cast; ring
  rw [hcast, pyRound_intCast]
  have hpos : ((10 ^ d : ℕ) : ℚ) ≠ 0 := by positivity
  push_cast
  field_simp

theorem pyTrunc_eq_of_nonneg (q : ℚ) (n : ℤ) (h0 : 0 ≤ q) (h1 : (n : ℚ) ≤ q)
    (h2 : q < (n : ℚ) + 1) : pyTrunc q = n := by
  unfold pyTrunc
  rw [if_pos h0]
  exact Int.floor_eq_iff.mpr ⟨h1, by linarith⟩

/-! Validation infrastructure. -/

theorem inputCheck_eq_filter (I : Inputs) :
    inputCheck I = allChecks.filter (checkFails I) := by
  by_cases h1 : I.doc_topic_dists.cols ≠ I.topic_term_dists.rows <;>
  by_cases h2 : I.doc_lengths.length ≠ I.doc_topic_dists.rows <;>
  by_cases h3 : I.topic_term_dists.cols ≠ I.vocab.length <;>
  by_cases h4 : I.term_frequency.length ≠ I.vocab.length <;>
  by_cases h5 : numDistRows I.topic_term_dists ≠ (I.topic_term_dists.rows : ℤ) <;>
  by_cases h6 : numDistRows I.doc_topic_dists ≠ (I.doc_topic_dists.rows : ℤ) <;>
  simp [inputCheck, allChecks, checkFails, h1, h2, h3, h4, h5, h6]

theorem mem_allChecks (m : CheckMsg) : m ∈ allChecks := by
  cases m <;> decide

theorem allChecks_nodup : allChecks.Nodup := by decide

theorem mem_inputCheck (I : Inputs) (m : CheckMsg) :
    m ∈ inputCheck I ↔ checkFails I m = true := by
  rw [inputCheck_eq_filter]
  simp [List.mem_filter, mem_allChecks]

theorem inputCheck_nodup (I : Inputs) : (inputCheck I).Nodup := by
  rw [inputCheck_eq_filter]
  exact allChecks_nodup.filter _

theorem inputValidate_error_eq (I : Inputs) (es : List CheckMsg)
    (h : inputValidate I = Except.error es) : es = inputCheck I := by
  unfold inputValidate at h
  by_cases hc : inputCheck I = []
  · rw [if_pos hc] at h
    exact absurd h (by simp)
  · rw [if_neg hc] at h
    exact (Except.error.inj h).symm

/-! Chunking infrastructure. -/

theorem chunksFun_slice_shift {α : Type} (n : Nat) :
    ∀ (m s : Nat) (l : List α),
      (List.range' (s + n) m n).map (fun i => (l.drop i).take n) =
        (List.range' s m n).map (fun i => ((l.drop n).drop i).take n) := by
  intro m
  induction m with
  | zero => intro s l; rfl
  | succ m ih =>
    intro s l
    rw [List.range'_succ, List.range'_succ, List.map_cons, List.map_cons]
    have hhead : (l.drop (s + n)).take n = ((l.drop n).drop s).take n := by
      rw [List.drop_drop, Nat.add_comm n s]
    rw [hhead]
    have htail := ih (s + n) l
    rw [← htail]

theorem range'_map_flatten {α : Type} (n : Nat) :
    ∀ (m : Nat) (l : List α), l.length ≤ m * n →
      ((List.range' 0 m n).map (fun i => (l.drop i).take n)).flatten = l := by
  intro m
  induction m with
  | zero =>
    intro l hl
    have hl0 : l.length = 0 := by omega
    have : l = [] := List.eq_nil_of_length_eq_zero hl0
    simp [this]
  | succ m ih =>
    intro l hl
    rw [List.range'_succ, List.map_cons, List.flatten_cons]
    have hshift := chunksFun_slice_shift n m 0 l
    rw [hshift]
    have hlen : (l.drop n).length ≤ m * n := by
      rw [List.length_drop]
      have : (m + 1) * n = m * n + n := Nat.succ_mul m n
      omega
    rw [ih (l.drop n) hlen, List.drop_zero, List.take_append_drop]

theorem chunksFun_flatten {α : Type} (l : List α) (n : Nat) (hn : 0 < n) :
    (chunksFun l n).flatten = l := by
  unfold chunksFun
  apply range'_map_flatten n
  have hdm := Nat.div_add_mod (l.length + n - 1) n
  have hlt : (l.length + n - 1) % n < n := Nat.mod_lt _ hn
  have hmul : n * ((l.length + n - 1) / n) = ((l.length + n - 1) / n) * n :=
    Nat.mul_comm _ _
  rw [hmul] at hdm
  revert hdm hlt
  generalize ((l.length + n - 1) / n) * n = t
  intro hdm hlt
  omega

theorem jobChunks_flatten {α : Type} (l : List α) (nJobs : ℤ) (cpu : Nat)
    (hn : nJobs ≠ 0) : (jobChunks l nJobs cpu).flatten = l := by
  unfold jobChunks
  apply chunksFun_flatten
  by_cases h : nJobs < 0
  · simp only [h, if_true]
    omega
  · simp only [h, if_false]
    omega

/-! Evaluation of the validator on the concrete inputs. -/

theorem numDistRows_exTiny_ttd : numDistRows exTiny.topic_term_dists = 1 := by
  have h0 : rowSum exTiny.topic_term_dists 0 = 1 := by
    simp [rowSum, exTiny]
  have hr : roundTo (1 : ℚ) 2 = 1 := by
    have := roundTo_intCast 1 2
    simpa using this
  unfold numDistRows
  have hrows : exTiny.topic_term_dists.rows = 1 := rfl
  rw [hrows, Finset.sum_range_one, h0, hr]
  apply pyTrunc_eq_of_nonneg _ 1 (by norm_num) (by norm_num) (by norm_num)

theorem numDistRows_exTiny_dtd : numDistRows exTiny.doc_topic_dists = 1 := by
  have h0 : rowSum exTiny.doc_topic_dists 0 = 1 := by
    simp [rowSum, exTiny]
  have hr : roundTo (1 : ℚ) 2 = 1 := by
    have := roundTo_intCast 1 2
    simpa using this
  unfold numDistRows
  have hrows : exTiny.doc_topic_dists.rows = 1 := rfl
  rw [hrows, Finset.sum_range_one, h0, hr]
  apply pyTrunc_eq_of_nonneg _ 1 (by norm_num) (by norm_num) (by norm_num)

theorem numDistRows_exBad_ttd : numDistRows exBad.topic_term_dists = 1 := by
  have h0 : rowSum exBad.topic_term_dists 0 = 1 := by
    simp [rowSum, exBad, Finset.sum_range_succ]
  have h1 : rowSum exBad.topic_term_dists 1 = 3/4 := by
    simp [rowSum, exBad, Finset.sum_range_succ]
    norm_num
  have hr1 : roundTo (1 : ℚ) 2 = 1 := by
    have := roundTo_intCast 1 2
    simpa using this
  have hr34 : roundTo (3/4 : ℚ) 2 = 3/4 := by
    unfold roundTo
    have hcast : ((3/4 : ℚ) * (10 ^ 2 : ℕ)) = ((75 : ℤ) : ℚ) := by norm_num
    rw [hcast, pyRound_intCast]
    norm_num
  unfold numDistRows
  have hrows : exBad.topic_term_dists.rows = 2 := rfl
  rw [hrows, Finset.sum_range_succ, Finset.sum_range_one, h0, h1, hr1, hr34]
  apply pyTrunc_eq_of_nonneg _ 1 (by norm_num) (by norm_num) (by norm_num)

theorem numDistRows_exBad_dtd : numDistRows exBad.doc_topic_dists = 1 := by
  have h0 : rowSum exBad.doc_topic_dists 0 = 1 := by
    simp [rowSum, exBad, Finset.sum_range_succ]
  have hr : roundTo (1 : ℚ) 2 = 1 := by
    have := roundTo_intCast 1 2
    simpa using this
  unfold numDistRows
  have hrows : exBad.doc_topic_dists.rows = 1 := rfl
  rw [hrows, Finset.sum_range_one, h0, hr]
  apply pyTrunc_eq_of_nonneg _ 1 (by norm_num) (by norm_num) (by norm_num)

theorem inputCheck_exTiny : inputCheck exTiny = [] := by
  unfold inputCheck
  rw [if_neg (by decide), if_neg (by decide), if_neg (by decide), if_neg (by decide),
    if_neg (by rw [numDistRows_exTiny_ttd]; decide),
    if_neg (by rw [numDistRows_exTiny_dtd]; decide)]
  rfl

theorem inputCheck_exBad : inputCheck exBad = [CheckMsg.ttdRowsNotSumOne] := by
  unfold inputCheck
  rw [if_neg (by decide), if_neg (by decide), if_neg (by decide), if_neg (by decide),
    if_pos (by rw [numDistRows_exBad_ttd]; decide),
    if_neg (by rw [numDistRows_exBad_dtd]; decide)]
  rfl

theorem inputValidate_exBad :
    inputValidate exBad = Except.error [CheckMsg.ttdRowsNotSumOne] := by
  unfold inputValidate
  rw [inputCheck_exBad]
  rfl

/-! Claim theorems. -/

/-- C10: for every list and every positive chunking parameter, concatenating
the chunks yielded by `_chunks(l, n)` in order gives back exactly `l`: every
element appears in exactly one chunk, chunks are contiguous and in order, and
nothing is duplicated or dropped. -/
theorem chunks_concat_exact {α : Type} (l : List α) (n : Nat) (h : 0 < n) :
    (chunksFun l n).flatten = l :=
  chunksFun_flatten l n h

theorem chunks_concat_exact_witness :
    0 < 2 ∧ (chunksFun [(1 : ℚ), 2, 3, 4, 5] 2).flatten = [(1 : ℚ), 2, 3, 4, 5] :=
  ⟨by decide, chunks_concat_exact [(1 : ℚ), 2, 3, 4, 5] 2 (by decide)⟩

/-- C7: evaluation of the code's sweep partitioning at the failing inputs.
On a 5-element sweep with `n_jobs = 2` the code produces 3 chunks (each of
size 2), not exactly 2 chunks as the claim states; with `n_jobs = -1` and 4
cpus it produces a single chunk (of size `4 + 1 - (-1) = 6`), not
`4 + 1 + (-1) = 4` chunks. -/
theorem jobChunks_failing_input :
    jobChunks [(0 : ℚ), 1/4, 1/2, 3/4, 1] 2 4 = [[0, 1/4], [1/2, 3/4], [1]] ∧
    (jobChunks [(0 : ℚ), 1/4, 1/2, 3/4, 1] 2 4).length ≠ 2 ∧
    jobChunks [(0 : ℚ), 1/4, 1/2, 3/4, 1] (-1) 4 = [[0, 1/4, 1/2, 3/4, 1]] ∧
    (jobChunks [(0 : ℚ), 1/4, 1/2, 3/4, 1] (-1) 4).length ≠ 4 :=
  ⟨rfl, by decide, rfl, by decide⟩

/-- C1: over exact rationals, for every term whose raw-estimate column has a
nonzero sum over topics, the corrected `_term_topic_freq` table sums over
topics to exactly that term's `term_frequency` (the correction rescales each
topic's raw estimate by `term_frequency / column-sum`). -/
theorem termTopicFreq_sums_to_term_frequency (K : Nat) (ttd : Nat → Nat → ℚ)
    (topicFreq termFreq : Nat → ℚ) (w : Nat)
    (h : ∑ u ∈ Finset.range K, termTopicFreqRaw ttd topicFreq u w ≠ 0) :
    ∑ k ∈ Finset.range K, termTopicFreq K ttd topicFreq termFreq k w = termFreq w := by
  unfold termTopicFreq
  rw [← Finset.sum_mul, ← mul_div_assoc, mul_div_cancel_left₀ _ h]

theorem termTopicFreq_sums_to_term_frequency_witness :
    (∑ u ∈ Finset.range 2, termTopicFreqRaw exTtd2 exTopicFreq2 u 0) ≠ 0 ∧
    ∑ k ∈ Finset.range 2, termTopicFreq 2 exTtd2 exTopicFreq2 exTermFreq2 k 0 =
      exTermFreq2 0 :=
  ⟨by norm_num [termTopicFreqRaw, exTtd2, exTopicFreq2, Finset.sum_range_succ],
   termTopicFreq_sums_to_term_frequency 2 exTtd2 exTopicFreq2 exTermFreq2 0
    (by norm_num [termTopicFreqRaw, exTtd2, exTopicFreq2, Finset.sum_range_succ])⟩

/-- C3: a distribution matrix passes the row-stochasticity check exactly when
rounding each row sum to 2 decimals, adding the rounded sums and truncating to
an integer yields the row count (this computation is `numDistRows`), separately
for `topic_term_dists` and `doc_topic_dists`; and whenever the computation
differs from the row count for one of the two matrices, the raised error's
message list contains that matrix's rows-not-summing-to-1 message. -/
theorem stochasticity_check_iff (I : Inputs) :
    (CheckMsg.ttdRowsNotSumOne ∉ inputCheck I ↔
      numDistRows I.topic_term_dists = (I.topic_term_dists.rows : ℤ)) ∧
    (CheckMsg.dtdRowsNotSumOne ∉ inputCheck I ↔
      numDistRows I.doc_topic_dists = (I.doc_topic_dists.rows : ℤ)) ∧
    (∀ es, inputValidate I = Except.error es →
      (CheckMsg.ttdRowsNotSumOne ∈ es ↔
        numDistRows I.topic_term_dists ≠ (I.topic_term_dists.rows : ℤ)) ∧
      (CheckMsg.dtdRowsNotSumOne ∈ es ↔
        numDistRows I.doc_topic_dists ≠ (I.doc_topic_dists.rows : ℤ))) := by
  have h1 := mem_inputCheck I CheckMsg.ttdRowsNotSumOne
  have h2 := mem_inputCheck I CheckMsg.dtdRowsNotSumOne
  simp only [checkFails, decide_eq_true_eq] at h1 h2
  refine ⟨?_, ?_, ?_⟩
  · rw [h1]; tauto
  · rw [h2]; tauto
  · intro es hes
    rw [inputValidate_error_eq I es hes]
    exact ⟨h1, h2⟩

theorem stochasticity_check_iff_witness :
    (CheckMsg.ttdRowsNotSumOne ∉ inputCheck exTiny ↔
      numDistRows exTiny.topic_term_dists = (exTiny.topic_term_dists.rows : ℤ)) ∧
    (CheckMsg.ttdRowsNotSumOne ∈ inputCheck exBad) ∧
    numDistRows exBad.topic_term_dists ≠ (exBad.topic_term_dists.rows : ℤ) :=
  ⟨(stochasticity_check_iff exTiny).1,
   by rw [inputCheck_exBad]; decide,
   by rw [numDistRows_exBad_ttd]; decide⟩

/-- C4: validation runs all six checks unconditionally; it returns silently
exactly when no check is violated, and otherwise raises a single error whose
message list has exactly one entry per violated check: membership in the list
coincides with the check conditions, the list has no duplicates, and it is
nonempty. -/
theorem inputValidate_collects_all (I : Inputs) :
    (inputValidate I = Except.ok () ↔ ∀ m, checkFails I m = false) ∧
    (∀ es, inputValidate I = Except.error es →
      (∀ m, m ∈ es ↔ checkFails I m = true) ∧ es.Nodup ∧ es ≠ []) := by
  constructor
  · constructor
    · intro h m
      have hnil : inputCheck I = [] := by
        unfold inputValidate at h
        by_cases hc : inputCheck I = []
        · exact hc
        · rw [if_neg hc] at h
          exact absurd h (by simp)
      have hmem := (mem_inputCheck I m)
      rw [hnil] at hmem
      simp only [List.not_mem_nil, false_iff] at hmem
      exact Bool.not_eq_true _ ▸ hmem
    · intro h
      have hnil : inputCheck I = [] := by
        rw [inputCheck_eq_filter, List.filter_eq_nil_iff]
        intro m _
        simp [h m]
      unfold inputValidate
      rw [if_pos hnil]
  · intro es hes
    have heq := inputValidate_error_eq I es hes
    have hne : inputCheck I ≠ [] := by
      intro hc
      unfold inputValidate at hes
      rw [if_pos hc] at hes
      exact absurd hes (by simp)
    subst heq
    exact ⟨mem_inputCheck I, inputCheck_nodup I, hne⟩

theorem inputValidate_collects_all_witness :
    inputValidate exTiny = Except.ok () ∧
    ((∀ m, m ∈ [CheckMsg.ttdRowsNotSumOne] ↔ checkFails exBad m = true) ∧
      [CheckMsg.ttdRowsNotSumOne].Nodup ∧ [CheckMsg.ttdRowsNotSumOne] ≠ []) :=
  ⟨by unfold inputValidate; rw [inputCheck_exTiny]; rfl,
   (inputValidate_collects_all exBad).2 [CheckMsg.ttdRowsNotSumOne] inputValidate_exBad⟩

/-- C5: the topic order produced by sorting the proportions descending is a
permutation of `{0..K-1}` (K = number of topic columns of `doc_topic_dists`),
the proportions read off along it are sorted descending, and it is applied as
a row permutation to `topic_term_dists` and a column permutation to
`doc_topic_dists`. -/
theorem topicOrder_perm_sorted (dtd ttd : Mat) (docLengths : Nat → ℚ) :
    (topicOrderOf dtd docLengths).Perm (List.range dtd.cols) ∧
    ((topicOrderOf dtd docLengths).map (topicProportionOf dtd docLengths)).Pairwise
      (fun a b => b ≤ a) ∧
    (∀ i j, (reorderRows ttd (topicOrderOf dtd docLengths)).entry i j =
      ttd.entry ((topicOrderOf dtd docLengths).getD i 0) j) ∧
    (∀ i j, (reorderCols dtd (topicOrderOf dtd docLengths)).entry i j =
      dtd.entry i ((topicOrderOf dtd docLengths).getD j 0)) := by
  refine ⟨List.mergeSort_perm _ _, ?_, fun i j => rfl, fun i j => rfl⟩
  have htrans : ∀ (a b c : Nat),
      decide (topicProportionOf dtd docLengths b ≤ topicProportionOf dtd docLengths a) = true →
      decide (topicProportionOf dtd docLengths c ≤ topicProportionOf dtd docLengths b) = true →
      decide (topicProportionOf dtd docLengths c ≤ topicProportionOf dtd docLengths a) = true := by
    intro a b c hab hbc
    simp only [decide_eq_true_eq] at hab hbc ⊢
    exact le_trans hbc hab
  have htotal : ∀ (a b : Nat),
      (decide (topicProportionOf dtd docLengths b ≤ topicProportionOf dtd docLengths a) ||
       decide (topicProportionOf dtd docLengths a ≤ topicProportionOf dtd docLengths b)) = true := by
    intro a b
    simp only [Bool.or_eq_true, decide_eq_true_eq]
    exact le_total _ _
  have hp := List.sorted_mergeSort htrans htotal (List.range dtd.cols)
  rw [List.pairwise_map]
  exact hp.imp (fun h => by simpa using h)

/-- C6: under the display enumeration of `_topic_info`, the 1-based id paired
with original topic index `x` is `x`'s position in the topic order plus 1 (and
every original index in the order receives such a pair); and the exported
`topic.order` list has, at display position `j`, the original index at that
position expressed as a 1-based id (`topic_order[j] + 1`). -/
theorem clientTopicOrder_ids (ord : List Nat) (hnd : ord.Nodup) :
    (∀ p x, (p, x) ∈ topicCategoryPairs ord → p = ord.indexOf x + 1) ∧
    (∀ x, x ∈ ord → (ord.indexOf x + 1, x) ∈ topicCategoryPairs ord) ∧
    (∀ j, j < ord.length → (clientTopicOrder ord).getD j 0 = ord.getD j 0 + 1) := by
  refine ⟨?_, ?_, ?_⟩
  · intro p x hmem
    unfold topicCategoryPairs at hmem
    obtain ⟨j, hj, heq⟩ := List.mem_map.mp hmem
    have hjlt : j < ord.length := List.mem_range.mp hj
    cases heq
    rw [List.getD_eq_getElem ord 0 hjlt, List.indexOf_getElem hnd j hjlt]
  · intro x hx
    have hlt : ord.indexOf x < ord.length := List.indexOf_lt_length.mpr hx
    unfold topicCategoryPairs
    apply List.mem_map.mpr
    refine ⟨ord.indexOf x, List.mem_range.mpr hlt, ?_⟩
    rw [List.getD_eq_getElem ord 0 hlt, List.getElem_indexOf hlt]
  · intro j hj
    unfold clientTopicOrder
    have hjm : j < (ord.map (fun x => x + 1)).length := by
      rw [List.length_map]; exact hj
    rw [List.getD_eq_getElem _ 0 hjm, List.getD_eq_getElem ord 0 hj, List.getElem_map]

theorem clientTopicOrder_ids_witness :
    ([1, 0] : List Nat).Nodup ∧
    (∀ p x, (p, x) ∈ topicCategoryPairs [1, 0] → p = ([1, 0] : List Nat).indexOf x + 1) ∧
    (∀ x, x ∈ ([1, 0] : List Nat) →
      (([1, 0] : List Nat).indexOf x + 1, x) ∈ topicCategoryPairs [1, 0]) ∧
    (∀ j, j < ([1, 0] : List Nat).length →
      (clientTopicOrder [1, 0]).getD j 0 = ([1, 0] : List Nat).getD j 0 + 1) :=
  ⟨by decide, clientTopicOrder_ids [1, 0] (by decide)⟩

theorem topTermsFor_eq_chunksless (logTtd logLift : Nat → Nat → ℚ) (W R : Nat)
    (L : List ℚ) (nJobs : ℤ) (cpu : Nat) (t : Nat) (hn : nJobs ≠ 0) :
    topTermsFor logTtd logLift W R L nJobs cpu t =
      findRelevanceChunks logTtd logLift W R L t := by
  unfold topTermsFor findRelevanceChunks
  conv_rhs => rw [← jobChunks_flatten L nJobs cpu hn]
  rw [List.map_flatten, List.flatten_flatten, List.map_map]
  rfl

/-- C2: the set of terms emitted for topic `t` in TopicInfo equals the union,
over every λ in the sweep, of the top-R terms ranked descending by relevance;
in particular, whenever 0 (resp. 1) lies in the sweep, it contains the pure
log-lift (λ=0) and the pure log-probability (λ=1) top-R rankings. -/
theorem topicInfo_terms_union (logTtd logLift : Nat → Nat → ℚ) (W R : Nat)
    (step : ℚ) (nJobs : ℤ) (cpu : Nat) (t : Nat) (hn : nJobs ≠ 0) :
    topicInfoTermSet logTtd logLift W R (lambdaSeq step) nJobs cpu t =
      (lambdaSeq step).toFinset.biUnion
        (fun lam => (findRelevance logTtd logLift W R lam t).toFinset) ∧
    ((0 : ℚ) ∈ lambdaSeq step →
      (findRelevance logTtd logLift W R 0 t).toFinset ⊆
        topicInfoTermSet logTtd logLift W R (lambdaSeq step) nJobs cpu t) ∧
    ((1 : ℚ) ∈ lambdaSeq step →
      (findRelevance logTtd logLift W R 1 t).toFinset ⊆
        topicInfoTermSet logTtd logLift W R (lambdaSeq step) nJobs cpu t) := by
  have hmain : topicInfoTermSet logTtd logLift W R (lambdaSeq step) nJobs cpu t =
      (lambdaSeq step).toFinset.biUnion
        (fun lam => (findRelevance logTtd logLift W R lam t).toFinset) := by
    unfold topicInfoTermSet
    rw [topTermsFor_eq_chunksless logTtd logLift W R (lambdaSeq step) nJobs cpu t hn]
    unfold findRelevanceChunks
    ext a
    simp only [List.mem_toFinset, List.mem_flatten, List.mem_map, Finset.mem_biUnion]
    constructor
    · rintro ⟨l, ⟨lam, hlam, rfl⟩, ha⟩
      exact ⟨lam, hlam, ha⟩
    · rintro ⟨lam, hlam, ha⟩
      exact ⟨findRelevance logTtd logLift W R lam t, ⟨lam, hlam, rfl⟩, ha⟩
  refine ⟨hmain, ?_, ?_⟩
  · intro h0
    rw [hmain]
    exact Finset.subset_biUnion_of_mem
      (fun lam => (findRelevance logTtd logLift W R lam t).toFinset)
      (List.mem_toFinset.mpr h0)
  · intro h1
    rw [hmain]
    exact Finset.subset_biUnion_of_mem
      (fun lam => (findRelevance logTtd logLift W R lam t).toFinset)
      (List.mem_toFinset.mpr h1)

theorem lambdaSeq_half : lambdaSeq (1/2) = [0, 1/2, 1] := by
  unfold lambdaSeq arange
  have h : ((1 + (1/2 : ℚ)) - 0) / (1/2) = ((3 : ℤ) : ℚ) := by norm_num
  rw [h, Int.ceil_intCast]
  show (List.range 3).map (fun k => (0 : ℚ) + (k : ℚ) * (1/2)) = [0, 1/2, 1]
  rw [show List.range 3 = [0, 1, 2] from rfl]
  norm_num

theorem topicInfo_terms_union_witness :
    ((2 : ℤ) ≠ 0) ∧ ((0 : ℚ) ∈ lambdaSeq (1/2)) ∧ ((1 : ℚ) ∈ lambdaSeq (1/2)) ∧
    topicInfoTermSet exLog0 exLog0 2 1 (lambdaSeq (1/2)) 2 0 0 =
      (lambdaSeq (1/2)).toFinset.biUnion
        (fun lam => (findRelevance exLog0 exLog0 2 1 lam 0).toFinset) ∧
    (findRelevance exLog0 exLog0 2 1 0 0).toFinset ⊆
      topicInfoTermSet exLog0 exLog0 2 1 (lambdaSeq (1/2)) 2 0 0 ∧
    (findRelevance exLog0 exLog0 2 1 1 0).toFinset ⊆
      topicInfoTermSet exLog0 exLog0 2 1 (lambdaSeq (1/2)) 2 0 0 := by
  have h := topicInfo_terms_union exLog0 exLog0 2 1 (1/2) 2 0 0 (by decide)
  have h0 : (0 : ℚ) ∈ lambdaSeq (1/2) := by rw [lambdaSeq_half]; simp
  have h1 : (1 : ℚ) ∈ lambdaSeq (1/2) := by rw [lambdaSeq_half]; simp
  exact ⟨by decide, h0, h1, h.1, h.2.1 h0, h.2.2 h1⟩

/-- C9: `_topic_coordinates` fails with its assertion exactly when the injected
mds strategy returns a result whose shape is not K×2 (never silently truncating
or padding); when the shape is exactly K×2 it builds one row per topic carrying
x, y, the 1-based topic id, the constant cluster tag 1 and
`Freq = topic_proportion * 100`. -/
theorem topicCoordinates_shape_contract (mds : Mat → Mat) (ttd : Mat) (prop : Nat → ℚ) :
    (topicCoordinates mds ttd prop = none ↔
      ¬((mds ttd).rows = ttd.rows ∧ (mds ttd).cols = 2)) ∧
    (∀ rows, topicCoordinates mds ttd prop = some rows →
      rows.length = ttd.rows ∧
      ∀ i, i < ttd.rows → rows.getD i ⟨0, 0, 0, 0, 0⟩ =
        ⟨(mds ttd).entry i 0, (mds ttd).entry i 1, i + 1, 1, prop i * 100⟩) := by
  simp only [topicCoordinates]
  by_cases h : (mds ttd).rows = ttd.rows ∧ (mds ttd).cols = 2
  · rw [if_pos h]
    refine ⟨by simp [h], ?_⟩
    intro rows hr
    have hrows : (List.range ttd.rows).map (fun i =>
        (⟨(mds ttd).entry i 0, (mds ttd).entry i 1, i + 1, 1, prop i * 100⟩ : CoordRow)) =
        rows := Option.some.inj hr
    subst hrows
    constructor
    · simp
    · intro i hi
      have him : i < ((List.range ttd.rows).map (fun i =>
          (⟨(mds ttd).entry i 0, (mds ttd).entry i 1, i + 1, 1, prop i * 100⟩ : CoordRow))).length := by
        simpa using hi
      rw [List.getD_eq_getElem _ _ him, List.getElem_map]
      simp
  · rw [if_neg h]
    refine ⟨by simp [h], ?_⟩
    intro rows hr
    exact absurd hr (by simp)

theorem topicCoordinates_shape_contract_witness :
    (topicCoordinates exMds2 exTiny.topic_term_dists (fun _ => 1) = none ↔
      ¬((exMds2 exTiny.topic_term_dists).rows = exTiny.topic_term_dists.rows ∧
        (exMds2 exTiny.topic_term_dists).cols = 2)) ∧
    (∀ rows, topicCoordinates exMds2 exTiny.topic_term_dists (fun _ => 1) = some rows →
      rows.length = exTiny.topic_term_dists.rows ∧
      ∀ i, i < exTiny.topic_term_dists.rows → rows.getD i ⟨0, 0, 0, 0, 0⟩ =
        ⟨(exMds2 exTiny.topic_term_dists).entry i 0,
         (exMds2 exTiny.topic_term_dists).entry i 1, i + 1, 1, (fun _ => (1 : ℚ)) i * 100⟩) :=
  topicCoordinates_shape_contract exMds2 exTiny.topic_term_dists (fun _ => 1)

/-- C8 (amended): when every term's corpus frequency is a positive integer and
the corrected term-topic frequencies are nonnegative and sum over topics to the
corpus frequency, every row of the token table has its raw frequency ≥ 0.5, its
value equal to the rounded raw frequency divided by the corpus frequency, and
that value lies in [0,1]; and the rows are sorted by term label, then by
1-based topic id. -/
theorem tokenTable_rows_amended (K : Nat) (ttf : Nat → Nat → ℚ) (tIdx : List Nat)
    (vocab : List String) (termFreq : Nat → ℚ)
    (hnn : ∀ p w, p < K → 0 ≤ ttf p w)
    (hint : ∀ w, w ∈ tIdx → ∃ m : ℕ, 0 < m ∧ termFreq w = m)
    (hsum : ∀ w, w ∈ tIdx → ∑ p ∈ Finset.range K, ttf p w = termFreq w) :
    (∀ r, r ∈ tokenTable K ttf tIdx vocab termFreq →
      1/2 ≤ ttf (r.topic - 1) r.termIndex ∧
      r.freq = (pyRound (ttf (r.topic - 1) r.termIndex) : ℚ) / termFreq r.termIndex ∧
      0 ≤ r.freq ∧ r.freq ≤ 1) ∧
    (tokenTable K ttf tIdx vocab termFreq).Pairwise
      (fun a b => a.term < b.term ∨ (a.term = b.term ∧ a.topic ≤ b.topic)) := by
  constructor
  · intro r hr
    unfold tokenTable at hr
    rw [List.mem_mergeSort] at hr
    obtain ⟨trip, htrip, hform⟩ := List.mem_map.mp hr
    obtain ⟨hmem, hcond⟩ := List.mem_filter.mp htrip
    obtain ⟨w, hw, hmem2⟩ := List.mem_flatMap.mp hmem
    obtain ⟨p, hp, htripeq⟩ := List.mem_map.mp hmem2
    subst htripeq
    subst hform
    have hwIdx : w ∈ tIdx := List.mem_dedup.mp (List.mem_mergeSort.mp hw)
    have hpK : p < K := List.mem_range.mp hp
    have hraw : (1 : ℚ)/2 ≤ ttf p w := of_decide_eq_true hcond
    obtain ⟨m, hm0, hmf⟩ := hint w hwIdx
    have hle : ttf p w ≤ termFreq w := by
      rw [← hsum w hwIdx]
      exact Finset.single_le_sum (fun i hi => hnn i w (List.mem_range.mp hi)) hp
    have hpr0 : 0 ≤ pyRound (ttf p w) :=
      pyRound_nonneg _ (le_trans (by norm_num) hraw)
    have hprm : pyRound (ttf p w) ≤ (m : ℤ) := by
      apply pyRound_le_int
      rw [hmf] at hle
      exact_mod_cast hle
    have htop : (p + 1) - 1 = p := Nat.add_sub_cancel p 1
    refine ⟨by simpa [htop] using hraw, by simp [htop], ?_, ?_⟩
    · apply div_nonneg
      · exact_mod_cast hpr0
      · rw [hmf]; positivity
    · show ((pyRound (ttf p w) : ℚ)) / termFreq w ≤ 1
      rw [hmf, div_le_one (by positivity)]
      exact_mod_cast hprm
  · have htrans : ∀ (a b c : TokenRow), tokenRowLe a b = true → tokenRowLe b c = true →
        tokenRowLe a c = true := by
      intro a b c hab hbc
      simp only [tokenRowLe, Bool.or_eq_true, Bool.and_eq_true, decide_eq_true_eq] at hab hbc ⊢
      rcases hab with h1 | ⟨h1, h2⟩ <;> rcases hbc with h3 | ⟨h3, h4⟩
      · exact Or.inl (lt_trans h1 h3)
      · exact Or.inl (h3 ▸ h1)
      · exact Or.inl (h1 ▸ h3)
      · exact Or.inr ⟨h1.trans h3, le_trans h2 h4⟩
    have htotal : ∀ (a b : TokenRow), (tokenRowLe a b || tokenRowLe b a) = true := by
      intro a b
      simp only [tokenRowLe, Bool.or_eq_true, Bool.and_eq_true, decide_eq_true_eq]
      rcases lt_trichotomy a.term b.term with h | h | h
      · exact Or.inl (Or.inl h)
      · rcases le_total a.topic b.topic with ht | ht
        · exact Or.inl (Or.inr ⟨h, ht⟩)
        · exact Or.inr (Or.inr ⟨h.symm, ht⟩)
      · exact Or.inr (Or.inl h)
    unfold tokenTable
    have hp := List.sorted_mergeSort htrans htotal
      (((((tIdx.dedup).mergeSort (fun a b => decide (a ≤ b))).flatMap
          (fun w => (List.range K).map (fun p => (w, p + 1, ttf p w)))).filter
            (fun r => decide ((1 : ℚ)/2 ≤ r.2.2))).map (fun r =>
        TokenRow.mk r.2.1 r.1 (vocab.getD r.1 noLabel) ((pyRound r.2.2 : ℚ) / termFreq r.1)))
    exact hp.imp (fun h => by
      simpa only [tokenRowLe, Bool.or_eq_true, Bool.and_eq_true, decide_eq_true_eq] using h)

theorem tokenTable_rows_amended_witness :
    (∀ r, r ∈ tokenTable 1 exTtfOne [0] ["a"] exTfTwo →
      1/2 ≤ exTtfOne (r.topic - 1) r.termIndex ∧
      r.freq = (pyRound (exTtfOne (r.topic - 1) r.termIndex) : ℚ) / exTfTwo r.termIndex ∧
      0 ≤ r.freq ∧ r.freq ≤ 1) ∧
    (tokenTable 1 exTtfOne [0] ["a"] exTfTwo).Pairwise
      (fun a b => a.term < b.term ∨ (a.term = b.term ∧ a.topic ≤ b.topic)) :=
  tokenTable_rows_amended 1 exTtfOne [0] ["a"] exTfTwo
    (fun _ _ _ => by norm_num [exTtfOne])
    (fun w _ => ⟨2, by norm_num, by norm_num [exTfTwo]⟩)
    (fun w _ => by simp [exTtfOne, exTfTwo])

/-- C8 (counterexample): on the validated input `exTiny` (non-integer corpus
frequency 3/5), the token table produced by the pipeline has a row whose
normalized frequency is 5/3 > 1: rounding the raw frequency 3/5 up to 1 and
dividing by the corpus frequency 3/5 exceeds 1.  The topic order is `[0]`, the
corrected term-topic frequency is exactly 3/5, the log matrices of this input
are identically zero so the emitted TopicInfo term index set is `{0}`, and the
resulting table is the single row `(topic 1, term "a", value 5/3)`. -/
theorem tokenTable_freq_counterexample :
    inputCheck exTiny = [] ∧
    exTinyOrd = [0] ∧
    (topTermsFor exLog0 exLog0 1 30 (lambdaSeq 1) (-1) 4 0).dedup = [0] ∧
    exTinyTtf 0 0 = 3/5 ∧
    tokenTable 1 exTinyTtf [0] exTiny.vocab exTinyTf =
      [TokenRow.mk 1 0 "a" (5/3)] ∧
    ¬((5/3 : ℚ) ≤ 1) := by
  have hord : exTinyOrd = [0] := by
    unfold exTinyOrd topicOrderOf
    rw [show exTiny.doc_topic_dists.cols = 1 from rfl,
      show List.range 1 = [0] from rfl, List.mergeSort_singleton]
  have httf : exTinyTtf 0 0 = 3/5 := by
    unfold exTinyTtf
    rw [hord]
    simp [termTopicFreq, termTopicFreqRaw, reorderRows, topicFreqOf, exTinyDl, exTinyTf, exTiny]
  have hseq1 : lambdaSeq 1 = [0, 1] := by
    unfold lambdaSeq arange
    have h : ((1 + (1 : ℚ)) - 0) / 1 = ((2 : ℤ) : ℚ) := by norm_num
    rw [h, Int.ceil_intCast]
    show (List.range 2).map (fun k => (0 : ℚ) + (k : ℚ) * 1) = [0, 1]
    rw [show List.range 2 = [0, 1] from rfl]
    norm_num
  have htt : (topTermsFor exLog0 exLog0 1 30 (lambdaSeq 1) (-1) 4 0).dedup = [0] := by
    rw [hseq1]
    have hfr : ∀ lam : ℚ, findRelevance exLog0 exLog0 1 30 lam 0 = [0] := by
      intro lam
      unfold findRelevance
      rw [show List.range 1 = [0] from rfl, List.mergeSort_singleton]
      rfl
    have hjc : jobChunks [(0 : ℚ), 1] (-1) 4 = [[0, 1]] := rfl
    unfold topTermsFor findRelevanceChunks
    rw [hjc]
    simp [hfr]
  have hpy : pyRound (3/5 : ℚ) = 1 := by
    have := pyRound_eq_high (3/5) 0 (by norm_num) (by norm_num)
    simpa using this
  have hcond : decide ((1 : ℚ)/2 ≤ exTinyTtf 0 0) = true := by
    rw [httf]
    exact decide_eq_true (by norm_num)
  have htab : tokenTable 1 exTinyTtf [0] exTiny.vocab exTinyTf =
      [TokenRow.mk 1 0 "a" (5/3)] := by
    unfold tokenTable
    rw [show (([0] : List Nat).dedup) = [0] by simp, List.mergeSort_singleton,
      show List.range 1 = [0] from rfl]
    simp only [List.flatMap_cons, List.flatMap_nil, List.map_cons, List.map_nil,
      List.append_nil, List.filter_cons, List.filter_nil, hcond, eq_self_iff_true, if_true]
    rw [List.mergeSort_singleton]
    rw [httf, hpy]
    have hv : exTiny.vocab.getD 0 noLabel = "a" := rfl
    have hf : exTinyTf 0 = 3/5 := rfl
    rw [hv, hf]
    norm_num
  exact ⟨inputCheck_exTiny, hord, htt, httf, htab, by norm_num⟩

end PyLDAvis
